import Mathlib

/-!
Verification development for the `yasm-build` repository (`yasm_build.py`).

The script is a linear build-orchestration pipeline: parse flags, (on
Windows) import the compiler environment, print a preflight plan, prompt,
clean, clone and patch the pinned yasm source, configure and build with an
external tool, install, optionally code-sign the installed binaries, and
pack the install tree into a zip archive.

Python strings are modelled as `List Char` (Python compares strings by
code point, which matches `Char` order), byte strings as `List Nat`.
External processes (git, cmake, ninja, codesign, signtool, the vcvars
batch file) are modelled by outcome oracles carried in a `World`, and the
control flow of the script is embedded as a trace-producing function
`runScript` over an event alphabet `Ev`.
-/

/-! ### Python string primitives -/

/-- Python's `<` on strings: lexicographic comparison by code point. -/
def strLtb : List Char → List Char → Bool
  | [], [] => false
  | [], _ :: _ => true
  | _ :: _, [] => false
  | a :: as, b :: bs => if a < b then true else if b < a then false else strLtb as bs

/-- Python's `<=` on strings (used by `sorted`). -/
def strLeb (a b : List Char) : Bool := !(strLtb b a)

/-- One insertion step of a stable insertion sort. -/
def insertSorted (le : List Char → List Char → Bool) (x : List Char) :
    List (List Char) → List (List Char)
  | [] => [x]
  | y :: ys => if le x y then x :: y :: ys else y :: insertSorted le x ys

/-- Stable sort (Python's `sorted` is a stable sort; on the duplicate-free
name lists produced by a directory listing any stable sort agrees with it). -/
def sortStable (le : List Char → List Char → Bool) (l : List (List Char)) :
    List (List Char) :=
  l.foldr (insertSorted le) []

/-- Boolean test that a list of names is in strictly ascending string order. -/
def strictChain : List (List Char) → Bool
  | [] => true
  | [_] => true
  | a :: b :: rest => strLtb a b && strictChain (b :: rest)

/-- The tail of `cs` starting at the last `'.'`, if any (helper for
`pathlib.PurePath.suffix`, whose `rfind('.')` locates the last dot). -/
def afterLastDot : List Char → Option (List Char)
  | [] => none
  | c :: rest =>
    match afterLastDot rest with
    | some s => some s
    | none => if c = '.' then some (c :: rest) else none

/-- `pathlib.PurePath.suffix`: `i = name.rfind('.')`; the result is
`name[i:]` when `0 < i < len(name) - 1` and `''` otherwise.  With
`s = name[i:]` those two bounds are `s.length < name.length` and
`1 < s.length`. -/
def pySuffix (cs : List Char) : List Char :=
  match afterLastDot cs with
  | none => []
  | some s => if s.length < cs.length ∧ 1 < s.length then s else []

/-- Patch discovery (`yasm_build.py` lines 141-145): iterate the patches
directory in sorted order and keep entries whose `suffix` is `'.patch'`. -/
def discoverPatches (entries : List (List Char)) : List (List Char) :=
  (sortStable strLeb entries).filter (fun p => pySuffix p = ".patch".toList)

/-! ### Archive-path arithmetic (`yasm_build.py` lines 265-283) -/

/-- `yasm_version = '1.3.0'` (line 17). -/
def yasm_version : List Char := "1.3.0".toList

/-- Name of the produced archive, `f'yasm-{yasm_version}.zip'` (line 266). -/
def archiveFileName : List Char := "yasm-".toList ++ yasm_version ++ ".zip".toList

/-- Python's `str.replace(pat, '')`: delete the non-overlapping occurrences
of `pat`, scanning left to right.  The `Nat` argument counts characters
still being skipped because they belong to a deleted occurrence. -/
def removeOccGo (pat : List Char) : List Char → Nat → List Char
  | [], _ => []
  | _ :: rest, k + 1 => removeOccGo pat rest k
  | c :: rest, 0 =>
    if pat.isPrefixOf (c :: rest) ∧ pat ≠ [] then removeOccGo pat rest (pat.length - 1)
    else c :: removeOccGo pat rest 0

/-- `root.replace(str(install_path), "")` as used on line 268. -/
def removeOcc (pat s : List Char) : List Char := removeOccGo pat s 0

/-- The character set of Python's `strip('\/')`: a backslash and a slash. -/
def stripSet : List Char := ['\\', '/']

/-- `relpath.strip('\/')` (line 269): drop leading and trailing backslashes
and slashes. -/
def pyStripSlashes (s : List Char) : List Char :=
  ((s.dropWhile (· ∈ stripSet)).reverse.dropWhile (· ∈ stripSet)).reverse

/-- The directory part of an archive member relative to the install root,
exactly as lines 268-269 compute it from a walk root. -/
def relpathOf (ip root : List Char) : List Char :=
  pyStripSlashes (removeOcc ip root)

/-- One step of `posixpath.join`. -/
def posixJoin2 (a b : List Char) : List Char :=
  if b.head? = some '/' then b
  else if a = [] ∨ a.getLast? = some '/' then a ++ b
  else a ++ '/' :: b

/-- `os.path.join` on POSIX for a non-empty argument list. -/
def posixJoin : List (List Char) → List Char
  | [] => []
  | a :: rest => rest.foldl posixJoin2 a

/-- `zipfile.ZIP_DEFLATED`. -/
def ZIP_DEFLATED : Nat := 8

/-- The fields of the `zipfile.ZipInfo` the packaging loop constructs for
one file (lines 273-280). -/
structure ZipInfoE where
  arcName : List Char
  externalAttr : Nat
  compressType : Nat
deriving DecidableEq, Repr

/-- The archive entry written for the file `fname` found under walk root
`root` of the install tree rooted at `ip`, with `isExec` the result of
`os.access(file_path, os.X_OK)` (lines 270-283). -/
def mkArchiveEntry (ip root fname : List Char) (isExec : Bool) : ZipInfoE :=
  { arcName := posixJoin ["yasm".toList, yasm_version, relpathOf ip root, fname]
    externalAttr := (if isExec then 0o755 else 0o644) <<< 16
    compressType := ZIP_DEFLATED }

/-! ### vcvars environment extraction (`yasm_build.py` lines 89-105) -/

/-- ASCII whitespace bytes removed by `bytes.strip()`. -/
def wsBytes : List Nat := [32, 9, 10, 13, 11, 12]

/-- `bytes.strip()` with no argument. -/
def bstrip (l : List Nat) : List Nat :=
  ((l.dropWhile (· ∈ wsBytes)).reverse.dropWhile (· ∈ wsBytes)).reverse

/-- `bytes.split(b'=')`: split a byte string at every occurrence of a byte. -/
def splitOnByte (b : Nat) : List Nat → List (List Nat)
  | [] => [[]]
  | c :: rest =>
    match splitOnByte b rest with
    | [] => [[c]]
    | g :: gs => if c = b then [] :: g :: gs else (c :: g) :: gs

/-- The variable-extraction loop over the lines of the vcvars output
(lines 98-105): strip each line, skip lines without `'='`, split the rest
at `'='`, decode the key and the `'='`-joined tail.  `dec` abstracts
`bytes.decode()`; a decode failure is an uncaught exception, modelled as
`none`. -/
def parseVcvars (dec : List Nat → Option (List Char)) :
    List (List Nat) → Option (List (List Char × List Char))
  | [] => some []
  | line :: rest =>
    let l := bstrip line
    if 61 ∈ l then
      match splitOnByte 61 l with
      | [] => none
      | k :: vs =>
        match dec k, dec (List.intercalate [61] vs) with
        | some key, some value =>
          match parseVcvars dec rest with
          | some env => some ((key, value) :: env)
          | none => none
        | _, _ => none
    else parseVcvars dec rest

/-! ### The orchestration pipeline -/

/-- Host platform, from `sys.platform`. -/
inductive Platform where
  | linux
  | darwin
  | windows
deriving DecidableEq, Repr

/-- The parsed command line (lines 73-87).  `install` and `patch` are
parsed but, like in the script, consulted by nothing after argument
parsing (`install` only feeds a preflight print). -/
structure Args where
  no_clone : Bool
  clean : Bool
  prompt : Bool
  install : Bool
  patch : Option (List (List Char))
  universal : Bool
  sign : Bool

/-- A file met by the darwin signing walk: its path, the result of
`os.access(path, os.X_OK)`, and its first four bytes. -/
structure MacFile where
  path : List Char
  execBit : Bool
  head4 : List Nat

/-- External observable actions of one run. -/
inductive Ev where
  | vcvarsCall
  | readInput
  | mkArtifacts
  | rmArtifacts
  | rmBuildDir
  | rmCache
  | gitClone
  | gitCheckout
  | gitApply (p : List Char)
  | cmake
  | rmInstall
  | mkInstall
  | ninjaBuild
  | ninjaInstall
  | unlockKeychain
  | codesign (p : List Char)
  | signtool (p srv : List Char)
  | writeArchive
  | rmSource
deriving DecidableEq, Repr

/-- Contents of the install path: (file path, file bytes) pairs, `none`
when the directory does not exist. -/
abbrev InstallTree := List (List Char × List Nat)

/-- Environment facts and external-process outcomes for one run. -/
structure World where
  plat : Platform
  vcCmdOk : Bool
  vcLines : List (List Nat)
  vcDec : List Nat → Option (List Char)
  ans1 : List Char
  ans2 : List Char
  artifactExists : Bool
  buildDirExists : Bool
  cacheExists : Bool
  installExists : Bool
  patchEntries : List (List Char)
  cloneOk : Bool
  checkoutOk : Bool
  applyOk : List Char → Bool
  cmakeOk : Bool
  buildOk : Bool
  installOk : Bool
  helperExists : Bool
  unlockOk : Bool
  codesignOk : List Char → Bool
  macFiles : List MacFile
  winFiles : List (List Char)
  signtoolOk : List Char → List Char → Bool
  installedTree : InstallTree
  signedBytes : List Char → List Nat
  winSignedBytes : List Char → List Nat

/-- A pipeline fragment: the events it emits and `some code` when it
terminates the process there. -/
abbrev Step := List Ev × Option Nat

/-- Sequential composition: the second fragment runs only when the first
did not exit. -/
def seqStep (x y : Step) : Step :=
  match x with
  | (evs, some c) => (evs, some c)
  | (evs, none) => (evs ++ y.1, y.2)

/-- Windows-only vcvars import (lines 89-105): `check_output` of the
vcvars batch file (an exception — `vcCmdOk = false` — kills the process),
then the extraction loop (a decode exception also kills the process). -/
def vcvarsStage (w : World) : Step :=
  match w.plat with
  | .windows =>
    if w.vcCmdOk = false then ([.vcvarsCall], some 1)
    else
      match parseVcvars w.vcDec w.vcLines with
      | none => ([.vcvarsCall], some 1)
      | some _ => ([.vcvarsCall], none)
  | _ => ([], none)

/-- Initial confirmation (lines 150-152): `args.prompt and input(...) != "y"`.
The `and` short-circuits, so stdin is read only when prompting is enabled. -/
def promptStage (a : Args) (w : World) : Step :=
  if a.prompt then ([.readInput], if w.ans1 = "y".toList then none else some 1)
  else ([], none)

/-- Artifact directory creation (lines 154-155). -/
def artifactsStage (w : World) : Step :=
  (if w.artifactExists then [] else [.mkArtifacts], none)

/-- Cleanup (lines 157-166): unlink the artifacts, remove the build
directory and the stale CMake cache when they exist. -/
def cleanStage (a : Args) (w : World) : Step :=
  if a.clean then
    ([.rmArtifacts] ++ (if w.buildDirExists then [.rmBuildDir] else [])
        ++ (if w.cacheExists then [.rmCache] else []), none)
  else ([], none)

/-- Install-overwrite confirmation (lines 168-171): reached only when the
install path exists; reads stdin only when prompting is enabled. -/
def overwriteStage (a : Args) (w : World) : Step :=
  if w.installExists then
    if a.prompt then ([.readInput], if w.ans2 = "y".toList then none else some 1)
    else ([], none)
  else ([], none)

/-- The patch-application loop (lines 188-192): apply each discovered
patch in order, exiting at the first failure. -/
def applyPatchesStep (ok : List Char → Bool) : List (List Char) → Step
  | [] => ([], none)
  | p :: ps =>
    if ok p then
      match applyPatchesStep ok ps with
      | (evs, e) => (.gitApply p :: evs, e)
    else ([.gitApply p], some 1)

/-- Source acquisition (lines 173-192): clone, checkout, then the patch
loop; skipped entirely under `--no-clone`. -/
def cloneStage (a : Args) (w : World) : Step :=
  if a.no_clone then ([], none)
  else if w.cloneOk = false then ([.gitClone], some 1)
  else if w.checkoutOk = false then ([.gitClone, .gitCheckout], some 1)
  else
    match applyPatchesStep w.applyOk (discoverPatches w.patchEntries) with
    | (evs, e) => ([.gitClone, .gitCheckout] ++ evs, e)

/-- Configure (lines 216-221). -/
def cmakeStage (w : World) : Step := ([.cmake], if w.cmakeOk then none else some 1)

/-- Build (lines 223-230): delete the install path when it exists,
recreate it empty, then run the build tool. -/
def buildStage (w : World) : Step :=
  ((if w.installExists then [.rmInstall] else []) ++ [.mkInstall, .ninjaBuild],
    if w.buildOk then none else some 1)

/-- Install (lines 233-236). -/
def installStage (w : World) : Step :=
  ([.ninjaInstall], if w.installOk then none else some 1)

/-- `keychain_unlocker` (lines 30-34): run the helper only when it exists;
report success only when it exists and exits 0. -/
def keychain_unlocker (w : World) : List Ev × Bool :=
  if w.helperExists then ([.unlockKeychain], w.unlockOk) else ([], false)

/-- `mac_sign(path, False, True)` (lines 37-52) as invoked by the signing
walk: unlock the keychain first; only on success invoke `codesign` (the
`deep`/`force` flags change only the argument list). -/
def mac_sign (w : World) (path : List Char) : List Ev × Bool :=
  match keychain_unlocker w with
  | (evs, false) => (evs, false)
  | (evs, true) => (evs ++ [.codesign path], w.codesignOk path)

/-- Fat Mach-O magic bytes, `b"\xca\xfe\xba\xbe"` (line 249). -/
def machoFatMagic : List Nat := [0xca, 0xfe, 0xba, 0xbe]

/-- The per-file darwin test (lines 245-250): executable bit set and the
first four bytes equal to the fat Mach-O magic. -/
def macWantsSign (f : MacFile) : Bool :=
  f.execBit && decide (f.head4 = machoFatMagic)

/-- The darwin signing walk (lines 242-254): sign every qualifying file,
exiting on the first `mac_sign` failure. -/
def macSignWalk (w : World) : List MacFile → Step
  | [] => ([], none)
  | f :: rest =>
    if macWantsSign f then
      match mac_sign w f.path with
      | (evs, true) =>
        match macSignWalk w rest with
        | (evs2, e) => (evs ++ evs2, e)
      | (evs, false) => (evs, some 1)
    else macSignWalk w rest

/-- The fixed, ordered timestamp-server list (line 56). -/
def timeServers : List (List Char) :=
  ["http://timestamp.digicert.com".toList, "http://timestamp.comodoca.com/rfc3161".toList]

/-- `signWindowsFiles` (lines 55-70): try the servers in order; return at
the first success; report failure after the list is exhausted. -/
def signWindowsFiles (ok : List Char → Bool) (path : List Char) :
    List (List Char) → List Ev × Bool
  | [] => ([], false)
  | s :: rest =>
    if ok s then ([.signtool path s], true)
    else
      match signWindowsFiles ok path rest with
      | (evs, r) => (.signtool path s :: evs, r)

/-- The per-file Windows name test (line 259). -/
def isWinSignTarget (f : List Char) : Bool :=
  List.isSuffixOf ".exe".toList f || List.isSuffixOf ".dll".toList f

/-- The Windows signing walk (lines 255-263). -/
def winSignWalk (w : World) : List (List Char) → Step
  | [] => ([], none)
  | f :: rest =>
    if isWinSignTarget f then
      match signWindowsFiles (w.signtoolOk f) f timeServers with
      | (evs, true) =>
        match winSignWalk w rest with
        | (evs2, e) => (evs ++ evs2, e)
      | (evs, false) => (evs, some 1)
    else winSignWalk w rest

/-- The signing stage (lines 239-263), platform-dispatched, gated on
`--sign`. -/
def signStage (a : Args) (w : World) : Step :=
  if a.sign then
    match w.plat with
    | .darwin => macSignWalk w w.macFiles
    | .windows => winSignWalk w w.winFiles
    | .linux => ([], none)
  else ([], none)

/-- Packaging (lines 265-283). -/
def archiveStage : Step := ([.writeArchive], none)

/-- Teardown (lines 285-287). -/
def teardownStage (a : Args) : Step :=
  (if a.clean then [.rmSource] else [], none)

/-- The whole script, lines 89-287, in source order. -/
def runScript (a : Args) (w : World) : Step :=
  seqStep (vcvarsStage w)
    (seqStep (promptStage a w)
      (seqStep (artifactsStage w)
        (seqStep (cleanStage a w)
          (seqStep (overwriteStage a w)
            (seqStep (cloneStage a w)
              (seqStep (cmakeStage w)
                (seqStep (buildStage w)
                  (seqStep (installStage w)
                    (seqStep (signStage a w)
                      (seqStep archiveStage (teardownStage a)))))))))))

/-- Filesystem meaning of one event for the install path only. -/
def applyEv (w : World) (t : Option InstallTree) : Ev → Option InstallTree
  | .rmInstall => none
  | .mkInstall => some []
  | .ninjaInstall => some w.installedTree
  | .codesign p =>
    Option.map (fun tr => tr.map fun e => if e.1 = p then (e.1, w.signedBytes p) else e) t
  | .signtool p _ =>
    Option.map (fun tr => tr.map fun e => if e.1 = p then (e.1, w.winSignedBytes p) else e) t
  | _ => t

/-- Replay a trace against the install path. -/
def replayInstall (w : World) (init : Option InstallTree) (t : List Ev) :
    Option InstallTree :=
  t.foldl (applyEv w) init

/-- The patches a trace applied to the source tree, in order. -/
def appliedPatches (t : List Ev) : List (List Char) :=
  t.filterMap fun e => match e with | .gitApply p => some p | _ => none

/-- Decidable substring-occurrence test: does `pat` occur inside `s`? -/
def occursInB (pat : List Char) : List Char → Bool
  | [] => pat.isEmpty
  | c :: rest => pat.isPrefixOf (c :: rest) || occursInB pat rest

/-- A trace in which every `codesign` invocation is preceded by a keychain
unlock attempt. -/
def unlockBeforeSign (t : List Ev) : Prop :=
  ∀ pre p post, t = pre ++ Ev.codesign p :: post → Ev.unlockKeychain ∈ pre

/-- The run proceeds at least up to the signing stage: every earlier
abort point passes. -/
def ReachesSign (a : Args) (w : World) : Prop :=
  (vcvarsStage w).2 = none
  ∧ (a.prompt = true → w.ans1 = "y".toList)
  ∧ (w.installExists = true → a.prompt = true → w.ans2 = "y".toList)
  ∧ (a.no_clone = false →
      w.cloneOk = true ∧ w.checkoutOk = true
      ∧ ∀ p ∈ discoverPatches w.patchEntries, w.applyOk p = true)
  ∧ w.cmakeOk = true ∧ w.buildOk = true ∧ w.installOk = true

/-- A concrete run configuration used to exercise the theorems. -/
def AOk : Args :=
  { no_clone := false, clean := true, prompt := true, install := true,
    patch := none, universal := false, sign := false }

/-- A concrete environment in which every external step succeeds. -/
def WOk : World :=
  { plat := .linux, vcCmdOk := true, vcLines := [], vcDec := fun _ => none,
    ans1 := "y".toList, ans2 := "y".toList,
    artifactExists := false, buildDirExists := true, cacheExists := false,
    installExists := true,
    patchEntries := ["b.patch".toList, "a.patch".toList, "c.txt".toList],
    cloneOk := true, checkoutOk := true, applyOk := fun _ => true,
    cmakeOk := true, buildOk := true, installOk := true,
    helperExists := true, unlockOk := true, codesignOk := fun _ => true,
    macFiles := [], winFiles := [], signtoolOk := fun _ _ => true,
    installedTree := [], signedBytes := fun _ => [], winSignedBytes := fun _ => [] }

/-- A Windows environment whose vcvars output has a line with `'='` whose
bytes fail to decode. -/
def WWinBadVc : World :=
  { WOk with plat := .windows, vcCmdOk := true, vcLines := [[61]], vcDec := fun _ => none }

/-- A macOS environment with a fat Mach-O binary installed but no
keychain-unlock helper. -/
def WMacNoHelper : World :=
  { WOk with
      plat := .darwin
      helperExists := false
      macFiles := [⟨"bin/yasm".toList, true, [0xca, 0xfe, 0xba, 0xbe]⟩] }

/-- A Windows environment whose signing tool fails against every
timestamp server. -/
def WWinSignFail : World :=
  { WOk with plat := .windows, winFiles := ["a.exe".toList], signtoolOk := fun _ _ => false }

/-! ### Lemmas: the string order -/

theorem strLtb_trans : ∀ a b c, strLtb a b = true → strLtb b c = true → strLtb a c = true := by
  intro a
  induction a with
  | nil =>
    intro b c hab hbc
    cases b with
    | nil => simp [strLtb] at hab
    | cons y bs =>
      cases c with
      | nil => simp [strLtb] at hbc
      | cons z cs => simp [strLtb]
  | cons x as ih =>
    intro b c hab hbc
    cases b with
    | nil => simp [strLtb] at hab
    | cons y bs =>
      cases c with
      | nil => simp [strLtb] at hbc
      | cons z cs =>
        simp only [strLtb] at hab hbc ⊢
        rcases lt_trichotomy x y with h1 | h1 | h1
        · rcases lt_trichotomy y z with h2 | h2 | h2
          · simp [lt_trans h1 h2]
          · subst h2; simp [h1]
          · simp [h2, lt_asymm h2] at hbc
        · subst h1
          rcases lt_trichotomy x z with h2 | h2 | h2
          · simp [h2]
          · subst h2
            simp [lt_irrefl] at hab hbc ⊢
            exact ih _ _ hab hbc
          · simp [h2, lt_asymm h2] at hbc
        · simp [h1, lt_asymm h1] at hab

theorem strLtb_conn : ∀ a b, strLtb a b = true ∨ strLtb b a = true ∨ a = b := by
  intro a
  induction a with
  | nil =>
    intro b
    cases b with
    | nil => right; right; rfl
    | cons y bs => left; simp [strLtb]
  | cons x as ih =>
    intro b
    cases b with
    | nil => right; left; simp [strLtb]
    | cons y bs =>
      rcases lt_trichotomy x y with h1 | h1 | h1
      · left; simp [strLtb, h1]
      · subst h1
        rcases ih bs with h | h | h
        · left; simp [strLtb, lt_irrefl, h]
        · right; left; simp [strLtb, lt_irrefl, h]
        · right; right; rw [h]
      · right; left; simp [strLtb, h1]

theorem strLtb_irrefl : ∀ a, strLtb a a = false := by
  intro a
  induction a with
  | nil => rfl
  | cons x as ih => simp [strLtb, lt_irrefl, ih]

theorem strLtb_asymm : ∀ a b, strLtb a b = true → strLtb b a = false := by
  intro a b hab
  by_contra h
  have hba : strLtb b a = true := by
    cases hb : strLtb b a
    · exact absurd hb h
    · rfl
  have := strLtb_trans a b a hab hba
  rw [strLtb_irrefl] at this
  exact Bool.false_ne_true this

theorem strLeb_total : ∀ a b, strLeb a b = true ∨ strLeb b a = true := by
  intro a b
  unfold strLeb
  cases hb : strLtb b a
  · left; rfl
  · right
    rw [strLtb_asymm b a hb]
    rfl

theorem strLeb_trans : ∀ a b c, strLeb a b = true → strLeb b c = true → strLeb a c = true := by
  intro a b c hab hbc
  unfold strLeb at *
  by_contra h
  have hca : strLtb c a = true := by
    cases hc : strLtb c a
    · exact absurd (by rw [hc]; rfl) h
    · rfl
  rcases strLtb_conn a b with h1 | h1 | h1
  · have := strLtb_trans c a b hca h1
    rw [this] at hbc
    simp at hbc
  · rw [h1] at hab
    simp at hab
  · subst h1
    rw [hca] at hbc
    simp at hbc

theorem strLtb_of_strLeb_ne : ∀ a b, strLeb a b = true → a ≠ b → strLtb a b = true := by
  intro a b hle hne
  rcases strLtb_conn a b with h | h | h
  · exact h
  · unfold strLeb at hle
    rw [h] at hle
    exact absurd hle (by simp)
  · exact absurd h hne

/-! ### Lemmas: the stable sort -/

theorem insertSorted_perm (le : List Char → List Char → Bool) (x : List Char) :
    ∀ l, (insertSorted le x l).Perm (x :: l) := by
  intro l
  induction l with
  | nil => simp [insertSorted]
  | cons y ys ih =>
    unfold insertSorted
    split
    · exact List.Perm.refl _
    · exact ((ih.cons y).trans (List.Perm.swap x y ys))

theorem sortStable_perm (le : List Char → List Char → Bool) :
    ∀ l, (sortStable le l).Perm l := by
  intro l
  induction l with
  | nil => simp [sortStable]
  | cons x xs ih =>
    have : sortStable le (x :: xs) = insertSorted le x (sortStable le xs) := rfl
    rw [this]
    exact (insertSorted_perm le x _).trans (ih.cons x)

theorem mem_insertSorted (le : List Char → List Char → Bool) (x y : List Char)
    (l : List (List Char)) : y ∈ insertSorted le x l ↔ y = x ∨ y ∈ l := by
  rw [(insertSorted_perm le x l).mem_iff]
  simp

theorem insertSorted_pairwise
    (htot : ∀ a b, strLeb a b = true ∨ strLeb b a = true)
    (htr : ∀ a b c, strLeb a b = true → strLeb b c = true → strLeb a c = true)
    (x : List Char) :
    ∀ l, l.Pairwise (fun a b => strLeb a b = true) →
      (insertSorted strLeb x l).Pairwise (fun a b => strLeb a b = true) := by
  intro l
  induction l with
  | nil => intro _; simp [insertSorted]
  | cons y ys ih =>
    intro h
    rcases List.pairwise_cons.mp h with ⟨hy, hys⟩
    unfold insertSorted
    split
    · rename_i hxy
      refine List.pairwise_cons.mpr ⟨?_, h⟩
      intro z hz
      rcases List.mem_cons.mp hz with rfl | hz
      · exact hxy
      · exact htr x y z hxy (hy z hz)
    · rename_i hxy
      have hyx : strLeb y x = true := by
        rcases htot x y with h' | h'
        · exact absurd h' hxy
        · exact h'
      refine List.pairwise_cons.mpr ⟨?_, ih hys⟩
      intro z hz
      rcases (mem_insertSorted strLeb x z ys).mp hz with rfl | hz
      · exact hyx
      · exact hy z hz

theorem sortStable_pairwise :
    ∀ l : List (List Char),
      (sortStable strLeb l).Pairwise (fun a b => strLeb a b = true) := by
  intro l
  induction l with
  | nil => simp [sortStable]
  | cons x xs ih =>
    have : sortStable strLeb (x :: xs) = insertSorted strLeb x (sortStable strLeb xs) := rfl
    rw [this]
    exact insertSorted_pairwise strLeb_total strLeb_trans x _ ih

theorem strictChain_of_pairwise :
    ∀ l : List (List Char), l.Pairwise (fun a b => strLtb a b = true) →
      strictChain l = true := by
  intro l
  induction l with
  | nil => intro _; rfl
  | cons a tail ih =>
    intro h
    rcases List.pairwise_cons.mp h with ⟨ha, htail⟩
    cases tail with
    | nil => rfl
    | cons b rest =>
      have h1 : strLtb a b = true := ha b (by simp)
      have h2 : strictChain (b :: rest) = true := ih htail
      simp [strictChain, h1, h2]

/-! ### Lemmas: `pySuffix` -/

theorem afterLastDot_isSuffix :
    ∀ p s, afterLastDot p = some s → s <:+ p := by
  intro p
  induction p with
  | nil => intro s h; simp [afterLastDot] at h
  | cons c rest ih =>
    intro s h
    unfold afterLastDot at h
    cases hrec : afterLastDot rest with
    | some t =>
      rw [hrec] at h
      cases h
      exact (ih _ hrec).trans (List.suffix_cons c rest)
    | none =>
      rw [hrec] at h
      by_cases hc : c = '.'
      · simp [hc] at h
        subst h
        subst hc
        exact List.suffix_rfl
      · simp [hc] at h

theorem afterLastDot_of_patch :
    ∀ p, ".patch".toList <:+ p → afterLastDot p = some ".patch".toList := by
  intro p
  induction p with
  | nil =>
    intro h
    have := h.length_le
    simp at this
  | cons c rest ih =>
    intro h
    rcases List.suffix_cons_iff.mp h with h | h
    · have hsplit : ('.' : Char) :: "patch".toList = c :: rest := h
      injection hsplit with hc hrest
      subst hc
      subst hrest
      decide
    · unfold afterLastDot
      rw [ih h]

theorem pySuffix_eq_patch_iff :
    ∀ p, pySuffix p = ".patch".toList ↔ (".patch".toList <:+ p ∧ 6 < p.length) := by
  intro p
  constructor
  · intro h
    cases hd : afterLastDot p with
    | none => simp [pySuffix, hd] at h
    | some s =>
      simp only [pySuffix, hd] at h
      by_cases hcond : s.length < p.length ∧ 1 < s.length
      · rw [if_pos hcond] at h
        subst h
        exact ⟨afterLastDot_isSuffix p _ hd, by simpa using hcond.1⟩
      · rw [if_neg hcond] at h
        simp at h
  · rintro ⟨hsuf, hlen⟩
    simp only [pySuffix, afterLastDot_of_patch p hsuf]
    rw [if_pos]
    constructor
    · simpa using hlen
    · simp

/-! ### Lemmas: `removeOcc` and `pyStripSlashes` -/

theorem removeOccGo_skip (pat : List Char) :
    ∀ xs rest, removeOccGo pat (xs ++ rest) xs.length = removeOccGo pat rest 0 := by
  intro xs
  induction xs with
  | nil => intro rest; rfl
  | cons x xs ih =>
    intro rest
    simpa [removeOccGo] using ih rest

theorem removeOcc_cancel_self (pat rest : List Char) (hne : pat ≠ []) :
    removeOcc pat (pat ++ rest) = removeOcc pat rest := by
  cases pat with
  | nil => exact absurd rfl hne
  | cons p ps =>
    have step : removeOccGo (p :: ps) (p :: (ps ++ rest)) 0 =
        if (p :: ps).isPrefixOf (p :: (ps ++ rest)) ∧ p :: ps ≠ [] then
          removeOccGo (p :: ps) (ps ++ rest) ((p :: ps).length - 1)
        else p :: removeOccGo (p :: ps) (ps ++ rest) 0 := rfl
    show removeOccGo (p :: ps) (p :: (ps ++ rest)) 0 = removeOcc (p :: ps) rest
    rw [step, if_pos]
    · have h1 : (p :: ps).length - 1 = ps.length := by simp
      rw [h1]
      exact removeOccGo_skip (p :: ps) ps rest
    · constructor
      · exact List.isPrefixOf_iff_prefix.mpr (by simp)
      · simp

theorem removeOcc_of_no_occ (pat : List Char) :
    ∀ s, occursInB pat s = false → removeOcc pat s = s := by
  intro s
  induction s with
  | nil => intro _; rfl
  | cons c rest ih =>
    intro h
    have h' : (pat.isPrefixOf (c :: rest) || occursInB pat rest) = false := h
    rcases Bool.or_eq_false_iff.mp h' with ⟨hpre, hrest⟩
    have step : removeOccGo pat (c :: rest) 0 =
        if pat.isPrefixOf (c :: rest) ∧ pat ≠ [] then
          removeOccGo pat rest (pat.length - 1)
        else c :: removeOccGo pat rest 0 := rfl
    show removeOccGo pat (c :: rest) 0 = c :: rest
    rw [step, if_neg]
    · have := ih hrest
      unfold removeOcc at this
      rw [this]
    · intro hand
      simp [hpre] at hand

theorem pyStripSlashes_nil : pyStripSlashes [] = [] := rfl

theorem dropWhile_stripSet_eq_self (l : List Char)
    (h : ∀ c, l.head? = some c → c ∉ stripSet) :
    l.dropWhile (· ∈ stripSet) = l := by
  cases l with
  | nil => rfl
  | cons c rest =>
    rw [List.dropWhile_cons, if_neg]
    simpa using h c rfl

theorem pyStripSlashes_slash_cons (rel : List Char)
    (hh : ∀ c, rel.head? = some c → c ∉ stripSet)
    (hl : ∀ c, rel.getLast? = some c → c ∉ stripSet) :
    pyStripSlashes ('/' :: rel) = rel := by
  unfold pyStripSlashes
  have h1 : ('/' :: rel).dropWhile (· ∈ stripSet) = rel.dropWhile (· ∈ stripSet) := by
    rw [List.dropWhile_cons, if_pos]
    simp [stripSet]
  rw [h1, dropWhile_stripSet_eq_self rel hh]
  have h2 : rel.reverse.dropWhile (· ∈ stripSet) = rel.reverse := by
    apply dropWhile_stripSet_eq_self
    intro c hc
    rw [List.head?_reverse] at hc
    exact hl c hc
  rw [h2, List.reverse_reverse]

/-! ### Lemmas: pipeline combinators -/

theorem seqStep_of_some (x y : Step) (c : Nat) (h : x.2 = some c) :
    seqStep x y = x := by
  rcases x with ⟨evs, e⟩
  cases e with
  | none => simp at h
  | some d => rfl

theorem seqStep_of_none (x y : Step) (h : x.2 = none) :
    seqStep x y = (x.1 ++ y.1, y.2) := by
  rcases x with ⟨evs, e⟩
  cases e with
  | none => rfl
  | some d => simp at h

theorem mem_seqStep {e : Ev} {x y : Step} (h : e ∈ (seqStep x y).1) :
    e ∈ x.1 ∨ e ∈ y.1 := by
  rcases x with ⟨evs, ex⟩
  cases ex with
  | none => simpa [seqStep] using h
  | some c => exact Or.inl (by simpa [seqStep] using h)

theorem not_mem_seqStep {e : Ev} {x y : Step} (hx : e ∉ x.1) (hy : e ∉ y.1) :
    e ∉ (seqStep x y).1 := by
  intro h
  rcases mem_seqStep h with h | h
  · exact hx h
  · exact hy h

/-! ### Lemmas: the events each stage can emit -/

theorem vcvarsStage_evs (w : World) : ∀ e ∈ (vcvarsStage w).1, e = Ev.vcvarsCall := by
  intro e he
  cases hp : w.plat <;> simp only [vcvarsStage, hp] at he
  · simp at he
  · simp at he
  · cases hv : w.vcCmdOk
    · simp [hv] at he
      exact he
    · cases hpv : parseVcvars w.vcDec w.vcLines <;> simp [hv, hpv] at he <;> exact he

theorem promptStage_evs (a : Args) (w : World) :
    ∀ e ∈ (promptStage a w).1, e = Ev.readInput := by
  intro e he
  cases hp : a.prompt <;> simp [promptStage, hp] at he
  exact he

theorem artifactsStage_evs (w : World) :
    ∀ e ∈ (artifactsStage w).1, e = Ev.mkArtifacts := by
  intro e he
  cases hp : w.artifactExists <;> simp [artifactsStage, hp] at he
  exact he

theorem cleanStage_evs (a : Args) (w : World) :
    ∀ e ∈ (cleanStage a w).1,
      e = Ev.rmArtifacts ∨ e = Ev.rmBuildDir ∨ e = Ev.rmCache := by
  intro e he
  cases hc : a.clean <;> simp [cleanStage, hc] at he
  cases hb : w.buildDirExists <;> cases hk : w.cacheExists <;>
    simp [hb, hk] at he <;> tauto

theorem overwriteStage_evs (a : Args) (w : World) :
    ∀ e ∈ (overwriteStage a w).1, e = Ev.readInput := by
  intro e he
  cases hi : w.installExists <;> simp [overwriteStage, hi] at he
  cases hp : a.prompt <;> simp [hp] at he
  exact he

theorem applyPatchesStep_evs (ok : List Char → Bool) :
    ∀ ps, ∀ e ∈ (applyPatchesStep ok ps).1, ∃ p, e = Ev.gitApply p := by
  intro ps
  induction ps with
  | nil => intro e he; simp [applyPatchesStep] at he
  | cons p ps ih =>
    intro e he
    rcases hrec : applyPatchesStep ok ps with ⟨evs, ex⟩
    cases hok : ok p <;> simp only [applyPatchesStep, hok, hrec] at he
    · simp at he
      exact ⟨p, he⟩
    · simp at he
      rcases he with he | he
      · exact ⟨p, he⟩
      · exact ih e (by rw [hrec]; exact he)

theorem cloneStage_evs (a : Args) (w : World) :
    ∀ e ∈ (cloneStage a w).1,
      e = Ev.gitClone ∨ e = Ev.gitCheckout ∨ ∃ p, e = Ev.gitApply p := by
  intro e he
  cases hn : a.no_clone <;> simp only [cloneStage, hn] at he
  · cases hc : w.cloneOk <;> simp only [hc] at he
    · simp at he
      tauto
    · cases hk : w.checkoutOk <;> simp only [hk] at he
      · simp at he
        tauto
      · rcases hrec : applyPatchesStep w.applyOk (discoverPatches w.patchEntries)
          with ⟨evs, ex⟩
        simp only [hrec] at he
        simp at he
        rcases he with he | he | he
        · tauto
        · tauto
        · exact Or.inr (Or.inr (applyPatchesStep_evs w.applyOk _ e (by rw [hrec]; exact he)))
  · simp at he

theorem cmakeStage_evs (w : World) : ∀ e ∈ (cmakeStage w).1, e = Ev.cmake := by
  intro e he
  simpa [cmakeStage] using he

theorem buildStage_evs (w : World) :
    ∀ e ∈ (buildStage w).1,
      e = Ev.rmInstall ∨ e = Ev.mkInstall ∨ e = Ev.ninjaBuild := by
  intro e he
  cases hi : w.installExists <;> simp [buildStage, hi] at he <;> tauto

theorem installStage_evs (w : World) :
    ∀ e ∈ (installStage w).1, e = Ev.ninjaInstall := by
  intro e he
  simpa [installStage] using he

theorem mac_sign_evs (w : World) (path : List Char) :
    ∀ e ∈ (mac_sign w path).1, e = Ev.unlockKeychain ∨ e = Ev.codesign path := by
  intro e he
  cases hh : w.helperExists <;> cases hu : w.unlockOk <;>
    simp [mac_sign, keychain_unlocker, hh, hu] at he <;> tauto

theorem macSignWalk_evs (w : World) :
    ∀ fs, ∀ e ∈ (macSignWalk w fs).1,
      e = Ev.unlockKeychain ∨ ∃ p, e = Ev.codesign p := by
  intro fs
  induction fs with
  | nil => intro e he; simp [macSignWalk] at he
  | cons f rest ih =>
    intro e he
    rcases hms : mac_sign w f.path with ⟨evs, ok⟩
    rcases hrec : macSignWalk w rest with ⟨evs2, ex⟩
    cases hw : macWantsSign f <;> simp only [macSignWalk, hw, hms, hrec] at he
    · exact ih e (by rw [hrec]; exact he)
    · cases ok <;> simp at he
      · rcases mac_sign_evs w f.path e (by rw [hms]; exact he) with h | h
        · tauto
        · exact Or.inr ⟨f.path, h⟩
      · rcases he with he | he
        · rcases mac_sign_evs w f.path e (by rw [hms]; exact he) with h | h
          · tauto
          · exact Or.inr ⟨f.path, h⟩
        · exact ih e (by rw [hrec]; exact he)

theorem signWindowsFiles_evs (ok : List Char → Bool) (path : List Char) :
    ∀ srvs, ∀ e ∈ (signWindowsFiles ok path srvs).1, ∃ s, e = Ev.signtool path s := by
  intro srvs
  induction srvs with
  | nil => intro e he; simp [signWindowsFiles] at he
  | cons s rest ih =>
    intro e he
    rcases hrec : signWindowsFiles ok path rest with ⟨evs, r⟩
    cases hok : ok s <;> simp only [signWindowsFiles, hok, hrec] at he <;> simp at he
    · rcases he with he | he
      · exact ⟨s, he⟩
      · exact ih e (by rw [hrec]; exact he)
    · exact ⟨s, he⟩

theorem winSignWalk_evs (w : World) :
    ∀ fs, ∀ e ∈ (winSignWalk w fs).1, ∃ p s, e = Ev.signtool p s := by
  intro fs
  induction fs with
  | nil => intro e he; simp [winSignWalk] at he
  | cons f rest ih =>
    intro e he
    rcases hsf : signWindowsFiles (w.signtoolOk f) f timeServers with ⟨evs, r⟩
    rcases hrec : winSignWalk w rest with ⟨evs2, ex⟩
    cases ht : isWinSignTarget f <;> simp only [winSignWalk, ht, hsf, hrec] at he
    · exact ih e (by rw [hrec]; exact he)
    · cases r <;> simp at he
      · rcases signWindowsFiles_evs (w.signtoolOk f) f timeServers e
            (by rw [hsf]; exact he) with ⟨s, hs⟩
        exact ⟨f, s, hs⟩
      · rcases he with he | he
        · rcases signWindowsFiles_evs (w.signtoolOk f) f timeServers e
              (by rw [hsf]; exact he) with ⟨s, hs⟩
          exact ⟨f, s, hs⟩
        · exact ih e (by rw [hrec]; exact he)

theorem signStage_evs (a : Args) (w : World) :
    ∀ e ∈ (signStage a w).1,
      e = Ev.unlockKeychain ∨ (∃ p, e = Ev.codesign p) ∨ ∃ p s, e = Ev.signtool p s := by
  intro e he
  cases hs : a.sign <;> simp only [signStage, hs] at he
  · simp at he
  · cases hp : w.plat <;> simp only [hp] at he
    · simp at he
    · rcases macSignWalk_evs w w.macFiles e he with h | h
      · tauto
      · tauto
    · rcases winSignWalk_evs w w.winFiles e he with ⟨p, s, h⟩
      exact Or.inr (Or.inr ⟨p, s, h⟩)

theorem archiveStage_evs : ∀ e ∈ archiveStage.1, e = Ev.writeArchive := by
  intro e he
  simpa [archiveStage] using he

theorem teardownStage_evs (a : Args) : ∀ e ∈ (teardownStage a).1, e = Ev.rmSource := by
  intro e he
  cases hc : a.clean <;> simp [teardownStage, hc] at he
  exact he

/-! ### Lemmas: stage exits and trace bookkeeping -/

theorem promptStage_exit (a : Args) (w : World)
    (h : a.prompt = true → w.ans1 = "y".toList) : (promptStage a w).2 = none := by
  cases hp : a.prompt
  · simp [promptStage, hp]
  · simp [promptStage, hp, h hp]

theorem artifactsStage_exit (w : World) : (artifactsStage w).2 = none := rfl

theorem cleanStage_exit (a : Args) (w : World) : (cleanStage a w).2 = none := by
  cases hc : a.clean <;> simp [cleanStage, hc]

theorem overwriteStage_exit (a : Args) (w : World)
    (h : w.installExists = true → a.prompt = true → w.ans2 = "y".toList) :
    (overwriteStage a w).2 = none := by
  cases hi : w.installExists
  · simp [overwriteStage, hi]
  · cases hp : a.prompt
    · simp [overwriteStage, hi, hp]
    · simp [overwriteStage, hi, hp, h hi hp]

theorem applyPatchesStep_all_ok (ok : List Char → Bool) :
    ∀ ps, (∀ p ∈ ps, ok p = true) →
      applyPatchesStep ok ps = (ps.map Ev.gitApply, none) := by
  intro ps
  induction ps with
  | nil => intro _; rfl
  | cons p ps ih =>
    intro h
    have hp : ok p = true := h p (by simp)
    have hrest := ih fun q hq => h q (by simp [hq])
    simp [applyPatchesStep, hp, hrest]

theorem cloneStage_exit (a : Args) (w : World)
    (h : a.no_clone = false →
      w.cloneOk = true ∧ w.checkoutOk = true
      ∧ ∀ p ∈ discoverPatches w.patchEntries, w.applyOk p = true) :
    (cloneStage a w).2 = none := by
  cases hn : a.no_clone
  · rcases h hn with ⟨hc, hk, hap⟩
    simp [cloneStage, hn, hc, hk, applyPatchesStep_all_ok w.applyOk _ hap]
  · simp [cloneStage, hn]

theorem cmakeStage_exit (w : World) (h : w.cmakeOk = true) : (cmakeStage w).2 = none := by
  simp [cmakeStage, h]

theorem buildStage_exit (w : World) (h : w.buildOk = true) : (buildStage w).2 = none := by
  simp [buildStage, h]

theorem installStage_exit (w : World) (h : w.installOk = true) :
    (installStage w).2 = none := by
  simp [installStage, h]

theorem runScript_exit_reaches_sign (a : Args) (w : World) (h : ReachesSign a w) :
    (runScript a w).2 = (seqStep (signStage a w) (seqStep archiveStage (teardownStage a))).2
    := by
  rcases h with ⟨h1, h2, h3, h4, h5, h6, h7⟩
  unfold runScript
  rw [seqStep_of_none _ _ h1]
  rw [seqStep_of_none _ _ (promptStage_exit a w h2)]
  rw [seqStep_of_none _ _ (artifactsStage_exit w)]
  rw [seqStep_of_none _ _ (cleanStage_exit a w)]
  rw [seqStep_of_none _ _ (overwriteStage_exit a w h3)]
  rw [seqStep_of_none _ _ (cloneStage_exit a w h4)]
  rw [seqStep_of_none _ _ (cmakeStage_exit w h5)]
  rw [seqStep_of_none _ _ (buildStage_exit w h6)]
  rw [seqStep_of_none _ _ (installStage_exit w h7)]

/-! ### Lemmas: install-path replay -/

theorem applyEv_benign (w : World) (t : Option InstallTree) (e : Ev)
    (h1 : e ≠ Ev.rmInstall) (h2 : e ≠ Ev.mkInstall) (h3 : e ≠ Ev.ninjaInstall)
    (h4 : ∀ p, e ≠ Ev.codesign p) (h5 : ∀ p s, e ≠ Ev.signtool p s) :
    applyEv w t e = t := by
  cases e <;> first
    | rfl
    | exact absurd rfl h1
    | exact absurd rfl h2
    | exact absurd rfl h3
    | exact absurd rfl (h4 _)
    | exact absurd rfl (h5 _ _)

theorem replayInstall_benign (w : World) :
    ∀ t init,
      (∀ e ∈ t, e ≠ Ev.rmInstall ∧ e ≠ Ev.mkInstall ∧ e ≠ Ev.ninjaInstall
        ∧ (∀ p, e ≠ Ev.codesign p) ∧ ∀ p s, e ≠ Ev.signtool p s) →
      replayInstall w init t = init := by
  intro t
  induction t with
  | nil => intro init _; rfl
  | cons e rest ih =>
    intro init h
    rcases h e (by simp) with ⟨h1, h2, h3, h4, h5⟩
    have : replayInstall w init (e :: rest) = replayInstall w (applyEv w init e) rest := rfl
    rw [this, applyEv_benign w init e h1 h2 h3 h4 h5]
    exact ih init fun e' he' => h e' (by simp [he'])

theorem replayInstall_append (w : World) (init : Option InstallTree) (t u : List Ev) :
    replayInstall w init (t ++ u) = replayInstall w (replayInstall w init t) u := by
  simp [replayInstall, List.foldl_append]

theorem replayInstall_snoc_mkInstall (w : World) (init : Option InstallTree) (t : List Ev) :
    replayInstall w init (t ++ [Ev.mkInstall]) = some [] := by
  rw [replayInstall_append]
  rfl

/-! ### Lemmas: extracting applied patches from a trace -/

theorem appliedPatches_append (t u : List Ev) :
    appliedPatches (t ++ u) = appliedPatches t ++ appliedPatches u :=
  List.filterMap_append t u _

theorem appliedPatches_eq_nil (t : List Ev)
    (h : ∀ e ∈ t, ∀ p, e ≠ Ev.gitApply p) : appliedPatches t = [] := by
  apply List.filterMap_eq_nil_iff.mpr
  intro e he
  cases e <;> first
    | rfl
    | exact absurd rfl (h _ he _)

theorem appliedPatches_map (ps : List (List Char)) :
    appliedPatches (ps.map Ev.gitApply) = ps := by
  induction ps with
  | nil => rfl
  | cons p ps ih =>
    have : appliedPatches (Ev.gitApply p :: ps.map Ev.gitApply)
        = p :: appliedPatches (ps.map Ev.gitApply) := rfl
    simpa [this] using ih

/-! ### Lemmas: the build event is always preceded by the install reset -/

theorem shape_seqStep (CH : List Ev) (x y : Step)
    (hx : Ev.ninjaBuild ∉ x.1)
    (hy : Ev.ninjaBuild ∈ y.1 → ∃ pre post, y.1 = pre ++ CH ++ post) :
    Ev.ninjaBuild ∈ (seqStep x y).1 →
      ∃ pre post, (seqStep x y).1 = pre ++ CH ++ post := by
  intro hmem
  rcases x with ⟨evs, ex⟩
  cases ex with
  | some c =>
    simp only [seqStep] at hmem
    exact absurd hmem hx
  | none =>
    simp only [seqStep] at hmem ⊢
    rcases List.mem_append.mp hmem with h | h
    · exact absurd h hx
    · rcases hy h with ⟨pre, post, hsplit⟩
      exact ⟨evs ++ pre, post, by rw [hsplit]; simp⟩

/-! ### Lemmas: keychain unlock precedes every codesign invocation -/

theorem unlockBeforeSign_of_no_codesign (t : List Ev)
    (h : ∀ p, Ev.codesign p ∉ t) : unlockBeforeSign t := by
  intro pre p post hsplit
  exact absurd (by rw [hsplit]; simp) (h p)


theorem unlockBeforeSign_cons_unlock (t : List Ev) :
    unlockBeforeSign (Ev.unlockKeychain :: t) := by
  intro pre p post h
  cases pre with
  | nil => simp at h
  | cons e pre2 =>
    rw [List.cons_append] at h
    injection h with h1 _
    rw [← h1]
    simp

theorem unlockBeforeSign_append (u v : List Ev)
    (hu : unlockBeforeSign u) (hv : unlockBeforeSign v) :
    unlockBeforeSign (u ++ v) := by
  intro pre p post hsplit
  rcases List.append_eq_append_iff.mp hsplit with ⟨a2, hpre, hv2⟩ | ⟨c2, hu2, hd⟩
  · have := hv a2 p post hv2
    rw [hpre]
    exact List.mem_append.mpr (Or.inr this)
  · cases c2 with
    | nil =>
      simp at hd
      have := hv [] p post (by rw [← hd]; simp)
      simp at this
    | cons m c2 =>
      rw [List.cons_append] at hd
      injection hd with h1 h2
      rw [← h1] at hu2
      exact hu pre p c2 hu2

theorem unlockBeforeSign_seqStep (x y : Step)
    (hx : unlockBeforeSign x.1) (hy : unlockBeforeSign y.1) :
    unlockBeforeSign (seqStep x y).1 := by
  rcases x with ⟨evs, ex⟩
  cases ex with
  | some c => exact hx
  | none => exact unlockBeforeSign_append evs y.1 hx hy

theorem mac_sign_unlockBeforeSign (w : World) (path : List Char) :
    unlockBeforeSign (mac_sign w path).1 := by
  cases hh : w.helperExists <;> cases hu : w.unlockOk <;>
    simp only [mac_sign, keychain_unlocker, hh, hu]
  · exact unlockBeforeSign_of_no_codesign [] (by simp)
  · exact unlockBeforeSign_of_no_codesign [] (by simp)
  · exact unlockBeforeSign_cons_unlock []
  · exact unlockBeforeSign_cons_unlock [Ev.codesign path]

theorem macSignWalk_unlockBeforeSign (w : World) :
    ∀ fs, unlockBeforeSign (macSignWalk w fs).1 := by
  intro fs
  induction fs with
  | nil => exact unlockBeforeSign_of_no_codesign _ (by simp [macSignWalk])
  | cons f rest ih =>
    rcases hms : mac_sign w f.path with ⟨evs, ok⟩
    cases hw : macWantsSign f
    · have heq : macSignWalk w (f :: rest) = macSignWalk w rest := by
        simp [macSignWalk, hw]
      rw [heq]
      exact ih
    · cases ok
      · have heq : macSignWalk w (f :: rest) = (evs, some 1) := by
          simp [macSignWalk, hw, hms]
        rw [heq]
        have := mac_sign_unlockBeforeSign w f.path
        rw [hms] at this
        exact this
      · have heq : (macSignWalk w (f :: rest)).1 = evs ++ (macSignWalk w rest).1 := by
          simp [macSignWalk, hw, hms]
        have hevs := mac_sign_unlockBeforeSign w f.path
        rw [hms] at hevs
        intro pre p post hsplit
        rw [heq] at hsplit
        exact unlockBeforeSign_append evs _ hevs ih pre p post hsplit

theorem mac_sign_fail (w : World) (path : List Char)
    (h : (w.helperExists && w.unlockOk) = false) :
    mac_sign w path = (if w.helperExists then [Ev.unlockKeychain] else [], false) := by
  cases hh : w.helperExists <;> cases hu : w.unlockOk <;>
    simp [hh, hu] at h ⊢ <;> simp [mac_sign, keychain_unlocker, hh, hu]

theorem macSignWalk_no_codesign (w : World)
    (h : (w.helperExists && w.unlockOk) = false) :
    ∀ fs p, Ev.codesign p ∉ (macSignWalk w fs).1 := by
  intro fs
  induction fs with
  | nil => intro p; simp [macSignWalk]
  | cons f rest ih =>
    intro p
    cases hw : macWantsSign f
    · have heq : macSignWalk w (f :: rest) = macSignWalk w rest := by
        simp [macSignWalk, hw]
      rw [heq]
      exact ih p
    · have heq : macSignWalk w (f :: rest)
          = ((if w.helperExists then [Ev.unlockKeychain] else []), some 1) := by
        simp [macSignWalk, hw, mac_sign_fail w f.path h]
      rw [heq]
      cases hh : w.helperExists <;> simp [hh]

theorem macSignWalk_aborts (w : World)
    (h : (w.helperExists && w.unlockOk) = false) :
    ∀ fs f, f ∈ fs → macWantsSign f = true → (macSignWalk w fs).2 = some 1 := by
  intro fs
  induction fs with
  | nil => intro f hf _; simp at hf
  | cons g rest ih =>
    intro f hf hq
    cases hw : macWantsSign g
    · have heq : macSignWalk w (g :: rest) = macSignWalk w rest := by
        simp [macSignWalk, hw]
      rw [heq]
      rcases List.mem_cons.mp hf with rfl | hf2
      · rw [hw] at hq; exact absurd hq (by simp)
      · exact ih f hf2 hq
    · have heq : macSignWalk w (g :: rest)
          = ((if w.helperExists then [Ev.unlockKeychain] else []), some 1) := by
        simp [macSignWalk, hw, mac_sign_fail w g.path h]
      rw [heq]

/-! ### Lemmas: the Windows timestamp-server retry loop -/

theorem signWindowsFiles_spec (ok : List Char → Bool) (path : List Char) :
    ∀ srvs, signWindowsFiles ok path srvs
      = ((srvs.takeWhile (fun s => !ok s) ++ (srvs.dropWhile (fun s => !ok s)).take 1).map
          (Ev.signtool path),
        !(srvs.dropWhile (fun s => !ok s)).isEmpty) := by
  intro srvs
  induction srvs with
  | nil => rfl
  | cons s rest ih =>
    cases hok : ok s
    · simp [signWindowsFiles, hok, ih, List.takeWhile_cons, List.dropWhile_cons]
    · simp [signWindowsFiles, hok, List.takeWhile_cons, List.dropWhile_cons]

theorem signWindowsFiles_fail (ok : List Char → Bool) (path : List Char) :
    ∀ srvs, (∀ s ∈ srvs, ok s = false) → (signWindowsFiles ok path srvs).2 = false := by
  intro srvs
  induction srvs with
  | nil => intro _; rfl
  | cons s rest ih =>
    intro h
    have hs : ok s = false := h s (by simp)
    rcases hrec : signWindowsFiles ok path rest with ⟨evs, r⟩
    have hr := ih fun q hq => h q (by simp [hq])
    rw [hrec] at hr
    simp [signWindowsFiles, hs, hrec, hr]

theorem winSignWalk_aborts (w : World) :
    ∀ fs f, f ∈ fs → isWinSignTarget f = true →
      (∀ s ∈ timeServers, w.signtoolOk f s = false) →
      (winSignWalk w fs).2 = some 1 := by
  intro fs
  induction fs with
  | nil => intro f hf _ _; simp at hf
  | cons g rest ih =>
    intro f hf htar hfail
    cases ht : isWinSignTarget g
    · have heq : winSignWalk w (g :: rest) = winSignWalk w rest := by
        simp [winSignWalk, ht]
      rw [heq]
      rcases List.mem_cons.mp hf with rfl | hf2
      · rw [ht] at htar; exact absurd htar (by simp)
      · exact ih f hf2 htar hfail
    · rcases hsf : signWindowsFiles (w.signtoolOk g) g timeServers with ⟨evs, r⟩
      cases r
      · have heq : winSignWalk w (g :: rest) = (evs, some 1) := by
          simp [winSignWalk, ht, hsf]
        rw [heq]
      · have heq : (winSignWalk w (g :: rest)).2 = (winSignWalk w rest).2 := by
          simp [winSignWalk, ht, hsf]
        rw [heq]
        rcases List.mem_cons.mp hf with rfl | hf2
        · have := signWindowsFiles_fail (w.signtoolOk f) f timeServers hfail
          rw [hsf] at this
          simp at this
        · exact ih f hf2 htar hfail

/-! ### Lemmas: the archive path computation -/

theorem relpathOf_self (ip : List Char) (hip : ip ≠ []) : relpathOf ip ip = [] := by
  unfold relpathOf
  have h1 : removeOcc ip ip = removeOcc ip [] := by
    have := removeOcc_cancel_self ip [] hip
    simpa using this
  rw [h1]
  rfl

theorem relpathOf_nested (ip rel : List Char) (hip : ip ≠ [])
    (hocc : occursInB ip ('/' :: rel) = false)
    (hh : ∀ c, rel.head? = some c → c ∉ stripSet)
    (hl : ∀ c, rel.getLast? = some c → c ∉ stripSet) :
    relpathOf ip (ip ++ '/' :: rel) = rel := by
  unfold relpathOf
  rw [removeOcc_cancel_self ip ('/' :: rel) hip,
    removeOcc_of_no_occ ip ('/' :: rel) hocc]
  exact pyStripSlashes_slash_cons rel hh hl

theorem getLast?_cons_of_ne_nil {a : Char} {l : List Char} (h : l ≠ []) :
    (a :: l).getLast? = l.getLast? := by
  cases l with
  | nil => exact absurd rfl h
  | cons b l2 => exact List.getLast?_cons_cons

theorem posixJoin_top (fname : List Char) (hf : ¬ fname.head? = some '/') :
    posixJoin ["yasm".toList, yasm_version, [], fname]
      = "yasm/1.3.0/".toList ++ fname := by
  have h1 : posixJoin ["yasm".toList, yasm_version, [], fname]
      = posixJoin2 (posixJoin2 (posixJoin2 "yasm".toList yasm_version) []) fname := rfl
  have h2 : posixJoin2 (posixJoin2 "yasm".toList yasm_version) [] = "yasm/1.3.0/".toList := by
    decide
  rw [h1, h2]
  unfold posixJoin2
  rw [if_neg hf, if_pos (Or.inr (by decide))]

theorem posixJoin_nested (rel fname : List Char) (hrelne : rel ≠ [])
    (hh : ∀ c, rel.head? = some c → c ∉ stripSet)
    (hl : ∀ c, rel.getLast? = some c → c ∉ stripSet)
    (hf : ¬ fname.head? = some '/') :
    posixJoin ["yasm".toList, yasm_version, rel, fname]
      = "yasm/1.3.0/".toList ++ rel ++ '/' :: fname := by
  have h1 : posixJoin ["yasm".toList, yasm_version, rel, fname]
      = posixJoin2 (posixJoin2 (posixJoin2 "yasm".toList yasm_version) rel) fname := rfl
  have h2 : posixJoin2 "yasm".toList yasm_version = "yasm/1.3.0".toList := by decide
  have hrelh : ¬ rel.head? = some '/' := by
    intro hc
    exact hh '/' hc (by simp [stripSet])
  have h3 : posixJoin2 "yasm/1.3.0".toList rel = "yasm/1.3.0".toList ++ '/' :: rel := by
    unfold posixJoin2
    rw [if_neg hrelh, if_neg]
    push_neg
    constructor
    · decide
    · decide
  have hlast : ("yasm/1.3.0".toList ++ '/' :: rel).getLast? = rel.getLast? := by
    rw [List.getLast?_append, getLast?_cons_of_ne_nil hrelne]
    cases hg : rel.getLast? with
    | none =>
      cases rel with
      | nil => exact absurd rfl hrelne
      | cons r rs => simp [List.getLast?_eq_none_iff] at hg
    | some c => rfl
  have h4 : posixJoin2 ("yasm/1.3.0".toList ++ '/' :: rel) fname
      = ("yasm/1.3.0".toList ++ '/' :: rel) ++ '/' :: fname := by
    unfold posixJoin2
    rw [if_neg hf, if_neg]
    push_neg
    constructor
    · simp
    · rw [hlast]
      intro hc
      exact hl '/' hc (by simp [stripSet])
  rw [h1, h2, h3, h4]
  simp

/-! ### The claims -/

/-- C1: for every run, the sequence of patches printed at preflight and
applied to the source tree (the `patches` list, built once on lines
141-145 and consumed by both the preflight print loop and the application
loop) consists of exactly the entries of the patches directory whose file
extension is `'.patch'`, in strictly ascending lexicographic filename
order; entries with any other extension are excluded.  The last conjunct
shows that a run that clones applies exactly that list, in that order, to
the source tree. -/
theorem c1_patch_discovery (entries : List (List Char)) (hnd : entries.Nodup) :
    strictChain (discoverPatches entries) = true
    ∧ (discoverPatches entries).Perm
        (entries.filter (fun p => pySuffix p = ".patch".toList))
    ∧ (∀ p, p ∈ discoverPatches entries ↔
        p ∈ entries ∧ (".patch".toList <:+ p ∧ 6 < p.length))
    ∧ (∀ (a : Args) (w : World), w.patchEntries = entries →
        a.no_clone = false →
        (a.prompt = true → w.ans1 = "y".toList) →
        (w.installExists = true → a.prompt = true → w.ans2 = "y".toList) →
        (vcvarsStage w).2 = none →
        w.cloneOk = true → w.checkoutOk = true →
        (∀ p ∈ discoverPatches entries, w.applyOk p = true) →
        appliedPatches (runScript a w).1 = discoverPatches entries) := by
  have hsortnd : (sortStable strLeb entries).Nodup :=
    (sortStable_perm strLeb entries).symm.nodup hnd
  have hsortle := sortStable_pairwise entries
  have hlt : (sortStable strLeb entries).Pairwise (fun a b => strLtb a b = true) :=
    (hsortle.and hsortnd).imp fun h => strLtb_of_strLeb_ne _ _ h.1 h.2
  refine ⟨?_, ?_, ?_, ?_⟩
  · exact strictChain_of_pairwise _ (hlt.filter _)
  · exact List.Perm.filter _ (sortStable_perm strLeb entries)
  · intro p
    constructor
    · intro hp
      rcases List.mem_filter.mp hp with ⟨hmem, hpat⟩
      have hpat2 : pySuffix p = ".patch".toList := by simpa using hpat
      exact ⟨(sortStable_perm strLeb entries).mem_iff.mp hmem,
        (pySuffix_eq_patch_iff p).mp hpat2⟩
    · rintro ⟨hmem, hsufl⟩
      apply List.mem_filter.mpr
      refine ⟨(sortStable_perm strLeb entries).mem_iff.mpr hmem, ?_⟩
      simpa using (pySuffix_eq_patch_iff p).mpr hsufl
  · intro a w hw hnc hp1 hp2 hvc hc hk hap
    subst hw
    have happly := applyPatchesStep_all_ok w.applyOk _ hap
    have hclone : cloneStage a w
        = ([Ev.gitClone, Ev.gitCheckout]
            ++ (discoverPatches w.patchEntries).map Ev.gitApply, none) := by
      simp [cloneStage, hnc, hc, hk, happly]
    have htail : appliedPatches (seqStep (cmakeStage w) (seqStep (buildStage w)
        (seqStep (installStage w) (seqStep (signStage a w)
          (seqStep archiveStage (teardownStage a)))))).1 = [] := by
      apply appliedPatches_eq_nil
      intro e he p
      rcases mem_seqStep he with h | h
      · have := cmakeStage_evs w _ h; simp [this]
      rcases mem_seqStep h with h | h
      · rcases buildStage_evs w _ h with h1 | h1 | h1 <;> simp [h1]
      rcases mem_seqStep h with h | h
      · have := installStage_evs w _ h; simp [this]
      rcases mem_seqStep h with h | h
      · rcases signStage_evs a w _ h with h1 | ⟨q, h1⟩ | ⟨q, s, h1⟩ <;> simp [h1]
      rcases mem_seqStep h with h | h
      · have := archiveStage_evs _ h; simp [this]
      · have := teardownStage_evs a _ h; simp [this]
    unfold runScript
    rw [seqStep_of_none _ _ hvc,
      seqStep_of_none _ _ (promptStage_exit a w hp1),
      seqStep_of_none _ _ (artifactsStage_exit w),
      seqStep_of_none _ _ (cleanStage_exit a w),
      seqStep_of_none _ _ (overwriteStage_exit a w hp2),
      seqStep_of_none _ _ (by rw [hclone])]
    simp only [appliedPatches_append]
    rw [hclone]
    have h1 : appliedPatches (vcvarsStage w).1 = [] :=
      appliedPatches_eq_nil _ fun e he p => by
        have := vcvarsStage_evs w _ he; simp [this]
    have h2 : appliedPatches (promptStage a w).1 = [] :=
      appliedPatches_eq_nil _ fun e he p => by
        have := promptStage_evs a w _ he; simp [this]
    have h3 : appliedPatches (artifactsStage w).1 = [] :=
      appliedPatches_eq_nil _ fun e he p => by
        have := artifactsStage_evs w _ he; simp [this]
    have h4 : appliedPatches (cleanStage a w).1 = [] :=
      appliedPatches_eq_nil _ fun e he p => by
        rcases cleanStage_evs a w _ he with h | h | h <;> simp [h]
    have h5 : appliedPatches (overwriteStage a w).1 = [] :=
      appliedPatches_eq_nil _ fun e he p => by
        have := overwriteStage_evs a w _ he; simp [this]
    have h6 : appliedPatches ([Ev.gitClone, Ev.gitCheckout]
        ++ (discoverPatches w.patchEntries).map Ev.gitApply)
        = discoverPatches w.patchEntries := by
      rw [appliedPatches_append]
      have : appliedPatches [Ev.gitClone, Ev.gitCheckout] = [] := rfl
      rw [this, appliedPatches_map]
      rfl
    rw [h1, h2, h3, h4, h5, h6, htail]
    simp

/-- C1 witness: a concrete directory listing. -/
theorem c1_patch_discovery_witness :
    (["b.patch".toList, "a.patch".toList, "c.txt".toList] : List (List Char)).Nodup
    ∧ (strictChain (discoverPatches ["b.patch".toList, "a.patch".toList, "c.txt".toList])
        = true
      ∧ (discoverPatches ["b.patch".toList, "a.patch".toList, "c.txt".toList]).Perm
          (["b.patch".toList, "a.patch".toList, "c.txt".toList].filter
            (fun p => pySuffix p = ".patch".toList))
      ∧ (∀ p, p ∈ discoverPatches ["b.patch".toList, "a.patch".toList, "c.txt".toList] ↔
          p ∈ ["b.patch".toList, "a.patch".toList, "c.txt".toList]
            ∧ (".patch".toList <:+ p ∧ 6 < p.length))
      ∧ (∀ (a : Args) (w : World),
          w.patchEntries = ["b.patch".toList, "a.patch".toList, "c.txt".toList] →
          a.no_clone = false →
          (a.prompt = true → w.ans1 = "y".toList) →
          (w.installExists = true → a.prompt = true → w.ans2 = "y".toList) →
          (vcvarsStage w).2 = none →
          w.cloneOk = true → w.checkoutOk = true →
          (∀ p ∈ discoverPatches ["b.patch".toList, "a.patch".toList, "c.txt".toList],
            w.applyOk p = true) →
          appliedPatches (runScript a w).1
            = discoverPatches ["b.patch".toList, "a.patch".toList, "c.txt".toList])) :=
  ⟨by decide, c1_patch_discovery _ (by decide)⟩

/-- C2 (amended): for every regular file in the install tree, the
packaging stage writes one archive entry whose stored permission metadata
is `0o755` shifted into the upper 16 bits when the executable-bit test on
the source file succeeds at archive time, and `0o644` otherwise; every
entry uses deflate compression (`ZIP_DEFLATED = 8`) and, provided the
slash-prefixed relative directory path — a `'/'` followed by the file's
directory path relative to the install root, which is exactly what is left
of the walk root once its leading install-root prefix is removed — does
not contain the absolute install-root string, and the relative path does
not begin or end with a slash or backslash, its archive path is
`'yasm/<version>/'` followed by the file's path relative to the install
root; the archive is named `'yasm-<version>.zip'`.  The proviso must be
stated on the slash-prefixed form: `str.replace` also deletes an
occurrence that starts at that separator, as the counterexample's second
instance shows. -/
theorem c2_archive_entry (ip rel fname : List Char) (x : Bool)
    (hip : ip ≠ [])
    (hocc : occursInB ip ('/' :: rel) = false)
    (hh : ∀ c, rel.head? = some c → c ∉ stripSet)
    (hl : ∀ c, rel.getLast? = some c → c ∉ stripSet)
    (hf : ¬ fname.head? = some '/') :
    (mkArchiveEntry ip ip fname x
      = { arcName := "yasm/1.3.0/".toList ++ fname
          externalAttr := (if x then 0o755 else 0o644) <<< 16
          compressType := 8 })
    ∧ (rel ≠ [] →
        mkArchiveEntry ip (ip ++ '/' :: rel) fname x
          = { arcName := "yasm/1.3.0/".toList ++ rel ++ '/' :: fname
              externalAttr := (if x then 0o755 else 0o644) <<< 16
              compressType := 8 })
    ∧ archiveFileName = "yasm-1.3.0.zip".toList := by
  refine ⟨?_, ?_, by decide⟩
  · unfold mkArchiveEntry
    rw [relpathOf_self ip hip, posixJoin_top fname hf]
    rfl
  · intro hrelne
    unfold mkArchiveEntry
    rw [relpathOf_nested ip rel hip hocc hh hl,
      posixJoin_nested rel fname hrelne hh hl hf]
    rfl

/-- C2 witness: a top-level file and a nested file of a normal install
tree. -/
theorem c2_archive_entry_witness :
    (("/b/build/install/yasm/1.3.0".toList : List Char) ≠ []
      ∧ occursInB "/b/build/install/yasm/1.3.0".toList ('/' :: "bin".toList) = false
      ∧ (∀ c, ("bin".toList : List Char).head? = some c → c ∉ stripSet)
      ∧ (∀ c, ("bin".toList : List Char).getLast? = some c → c ∉ stripSet)
      ∧ ¬ ("yasm".toList : List Char).head? = some '/')
    ∧ ((mkArchiveEntry "/b/build/install/yasm/1.3.0".toList
          "/b/build/install/yasm/1.3.0".toList "yasm".toList true
        = { arcName := "yasm/1.3.0/".toList ++ "yasm".toList
            externalAttr := (if true then 0o755 else 0o644) <<< 16
            compressType := 8 })
      ∧ (("bin".toList : List Char) ≠ [] →
          mkArchiveEntry "/b/build/install/yasm/1.3.0".toList
            ("/b/build/install/yasm/1.3.0".toList ++ '/' :: "bin".toList)
            "yasm".toList true
          = { arcName := "yasm/1.3.0/".toList ++ "bin".toList ++ '/' :: "yasm".toList
              externalAttr := (if true then 0o755 else 0o644) <<< 16
              compressType := 8 })
      ∧ archiveFileName = "yasm-1.3.0.zip".toList) :=
  ⟨by decide,
    c2_archive_entry "/b/build/install/yasm/1.3.0".toList "bin".toList "yasm".toList true
      (by decide) (by decide) (by decide) (by decide) (by decide)⟩

/-- C2 counterexample: the relative-path computation removes every
occurrence of the install-root string (`str.replace(old, '')`), not just
the leading one, refuting the claim as universally stated.  First
instance: an install tree nesting a directory chain equal to the absolute
install path yields archive path `yasm/1.3.0/x/f` instead of
`'yasm/<version>/'` plus the relative path.  Second instance: the deleted
occurrence may start at the separator right after the leading prefix —
with relative directory path `b/build/install/yasm/1.3.0/z` (which does
not itself contain the install-root string, as the `occursInB` conjunct
shows) the archive path is `yasm/1.3.0/z/f`; this is why the amended
proviso must exclude occurrences in the slash-prefixed relative path,
not merely in the relative path itself. -/
theorem c2_archive_entry_counterexample :
    ((mkArchiveEntry "/b/build/install/yasm/1.3.0".toList
        ("/b/build/install/yasm/1.3.0".toList ++ "/x".toList
          ++ "/b/build/install/yasm/1.3.0".toList)
        "f".toList false).arcName = "yasm/1.3.0/x/f".toList
      ∧ (mkArchiveEntry "/b/build/install/yasm/1.3.0".toList
          ("/b/build/install/yasm/1.3.0".toList ++ "/x".toList
            ++ "/b/build/install/yasm/1.3.0".toList)
          "f".toList false).arcName
        ≠ "yasm/1.3.0/".toList ++ "x/b/build/install/yasm/1.3.0/f".toList)
    ∧ (occursInB "/b/build/install/yasm/1.3.0".toList
          "b/build/install/yasm/1.3.0/z".toList = false
      ∧ occursInB "/b/build/install/yasm/1.3.0".toList
          ('/' :: "b/build/install/yasm/1.3.0/z".toList) = true
      ∧ (mkArchiveEntry "/b/build/install/yasm/1.3.0".toList
          ("/b/build/install/yasm/1.3.0".toList
            ++ '/' :: "b/build/install/yasm/1.3.0/z".toList)
          "f".toList false).arcName = "yasm/1.3.0/z/f".toList
      ∧ (mkArchiveEntry "/b/build/install/yasm/1.3.0".toList
          ("/b/build/install/yasm/1.3.0".toList
            ++ '/' :: "b/build/install/yasm/1.3.0/z".toList)
          "f".toList false).arcName
        ≠ "yasm/1.3.0/".toList ++ "b/build/install/yasm/1.3.0/z".toList
            ++ '/' :: "f".toList) := by
  decide

/-- C3 evaluation: the darwin signing walk tests the first four bytes
against the fat Mach-O magic `ca fe ba be` only.  A regular file with the
executable bit set whose first four bytes are the thin 64-bit Mach-O
magic as stored on disk (`cf fa ed fe`) is skipped — contrary to the
claim's "fat/thin Mach-O magic markers" it is never passed to the signing
tool — while a fat binary does qualify. -/
theorem c3_thin_macho_skipped :
    macWantsSign ⟨"bin/yasm".toList, true, [0xcf, 0xfa, 0xed, 0xfe]⟩ = false
    ∧ macSignWalk WOk [⟨"bin/yasm".toList, true, [0xcf, 0xfa, 0xed, 0xfe]⟩] = ([], none)
    ∧ macWantsSign ⟨"bin/yasm".toList, true, [0xca, 0xfe, 0xba, 0xbe]⟩ = true
    ∧ (macSignWalk WOk [⟨"bin/yasm".toList, true, [0xca, 0xfe, 0xba, 0xbe]⟩]).1
        = [Ev.unlockKeychain, Ev.codesign "bin/yasm".toList] := by
  decide

/-- C5: with `--no-prompt`, no stage of the run ever reads standard
input: neither the initial confirmation nor the install-overwrite check
executes an input read on any execution path. -/
theorem c5_no_prompt_never_reads_stdin (a : Args) (w : World) (hp : a.prompt = false) :
    Ev.readInput ∉ (runScript a w).1 := by
  intro hmem
  unfold runScript at hmem
  rcases mem_seqStep hmem with h | h
  · have := vcvarsStage_evs w _ h; simp at this
  rcases mem_seqStep h with h | h
  · have heq : promptStage a w = ([], none) := by simp [promptStage, hp]
    rw [heq] at h; simp at h
  rcases mem_seqStep h with h | h
  · have := artifactsStage_evs w _ h; simp at this
  rcases mem_seqStep h with h | h
  · rcases cleanStage_evs a w _ h with h1 | h1 | h1 <;> simp at h1
  rcases mem_seqStep h with h | h
  · have heq : overwriteStage a w = ([], none) := by
      cases hi : w.installExists <;> simp [overwriteStage, hi, hp]
    rw [heq] at h; simp at h
  rcases mem_seqStep h with h | h
  · rcases cloneStage_evs a w _ h with h1 | h1 | ⟨p, h1⟩ <;> simp at h1
  rcases mem_seqStep h with h | h
  · have := cmakeStage_evs w _ h; simp at this
  rcases mem_seqStep h with h | h
  · rcases buildStage_evs w _ h with h1 | h1 | h1 <;> simp at h1
  rcases mem_seqStep h with h | h
  · have := installStage_evs w _ h; simp at this
  rcases mem_seqStep h with h | h
  · rcases signStage_evs a w _ h with h1 | ⟨p, h1⟩ | ⟨p, s, h1⟩ <;> simp at h1
  rcases mem_seqStep h with h | h
  · have := archiveStage_evs _ h; simp at this
  · have := teardownStage_evs a _ h; simp at this

/-- C5 witness: a concrete `--no-prompt` run. -/
theorem c5_no_prompt_never_reads_stdin_witness :
    ({ AOk with prompt := false } : Args).prompt = false
    ∧ Ev.readInput ∉ (runScript { AOk with prompt := false } WOk).1 :=
  ⟨rfl, c5_no_prompt_never_reads_stdin { AOk with prompt := false } WOk rfl⟩

/-- C6: when the install path already exists, prompting is enabled, the
initial confirmation was answered `"y"`, and the operator declines the
install-overwrite prompt, the process exits with code 1 and replaying the
run's trace against the install path leaves its contents byte-for-byte
unchanged: no stage that modifies the install path is reached. -/
theorem c6_decline_overwrite_preserves_install (a : Args) (w : World)
    (init : Option InstallTree)
    (hvc : (vcvarsStage w).2 = none)
    (hp : a.prompt = true) (h1 : w.ans1 = "y".toList)
    (hi : w.installExists = true) (h2 : w.ans2 ≠ "y".toList) :
    (runScript a w).2 = some 1
    ∧ replayInstall w init (runScript a w).1 = init := by
  have hov : overwriteStage a w = ([Ev.readInput], some 1) := by
    simp [overwriteStage, hi, hp]
    exact h2
  have hpr : promptStage a w = ([Ev.readInput], none) := by
    simp [promptStage, hp, h1]
  have hov2 : (overwriteStage a w).2 = some 1 := by rw [hov]
  have hpr2 : (promptStage a w).2 = none := by rw [hpr]
  have hrun : runScript a w
      = ((vcvarsStage w).1 ++ ((promptStage a w).1 ++ ((artifactsStage w).1
          ++ ((cleanStage a w).1 ++ (overwriteStage a w).1))), (overwriteStage a w).2) := by
    unfold runScript
    rw [seqStep_of_some (overwriteStage a w) _ 1 hov2,
      seqStep_of_none (cleanStage a w) _ (cleanStage_exit a w),
      seqStep_of_none (artifactsStage w) _ (artifactsStage_exit w),
      seqStep_of_none (promptStage a w) _ hpr2,
      seqStep_of_none (vcvarsStage w) _ hvc]
  rw [hrun]
  refine ⟨hov2, ?_⟩
  apply replayInstall_benign
  intro e he
  simp only [List.mem_append] at he
  rcases he with h | h | h | h | h
  · have := vcvarsStage_evs w _ h
    subst this; simp
  · have := promptStage_evs a w _ h
    subst this; simp
  · have := artifactsStage_evs w _ h
    subst this; simp
  · rcases cleanStage_evs a w _ h with h3 | h3 | h3 <;> subst h3 <;> simp
  · have := overwriteStage_evs a w _ h
    subst this; simp

/-- C6 witness: a concrete declined overwrite prompt. -/
theorem c6_decline_overwrite_preserves_install_witness :
    ((vcvarsStage { WOk with ans2 := "n".toList }).2 = none
      ∧ (AOk).prompt = true
      ∧ ({ WOk with ans2 := "n".toList } : World).ans1 = "y".toList
      ∧ ({ WOk with ans2 := "n".toList } : World).installExists = true
      ∧ ({ WOk with ans2 := "n".toList } : World).ans2 ≠ "y".toList)
    ∧ ((runScript AOk { WOk with ans2 := "n".toList }).2 = some 1
      ∧ replayInstall { WOk with ans2 := "n".toList } (some [(['f'], [7])])
          (runScript AOk { WOk with ans2 := "n".toList }).1 = some [(['f'], [7])]) :=
  ⟨by decide,
    c6_decline_overwrite_preserves_install AOk { WOk with ans2 := "n".toList }
      (some [(['f'], [7])]) (by decide) rfl rfl rfl (by decide)⟩

/-- C7: on every run that reaches the build-tool invocation, the trace
immediately preceding the build event ends with the install-path reset:
the install path is deleted when it existed and recreated, so that
replaying the trace up to the point just before the build shows an empty
install directory — regardless of every flag, including `--no-clean`. -/
theorem c7_build_starts_from_clean_install (a : Args) (w : World)
    (init : Option InstallTree)
    (hmem : Ev.ninjaBuild ∈ (runScript a w).1) :
    ∃ pre post,
      (runScript a w).1
        = pre ++ ((if w.installExists then [Ev.rmInstall] else [])
            ++ [Ev.mkInstall, Ev.ninjaBuild]) ++ post
      ∧ replayInstall w init
          (pre ++ ((if w.installExists then [Ev.rmInstall] else []) ++ [Ev.mkInstall]))
          = some [] := by
  have habs1 : Ev.ninjaBuild ∉ (vcvarsStage w).1 := fun h => by
    have := vcvarsStage_evs w _ h; simp at this
  have habs2 : Ev.ninjaBuild ∉ (promptStage a w).1 := fun h => by
    have := promptStage_evs a w _ h; simp at this
  have habs3 : Ev.ninjaBuild ∉ (artifactsStage w).1 := fun h => by
    have := artifactsStage_evs w _ h; simp at this
  have habs4 : Ev.ninjaBuild ∉ (cleanStage a w).1 := fun h => by
    rcases cleanStage_evs a w _ h with h1 | h1 | h1 <;> simp at h1
  have habs5 : Ev.ninjaBuild ∉ (overwriteStage a w).1 := fun h => by
    have := overwriteStage_evs a w _ h; simp at this
  have habs6 : Ev.ninjaBuild ∉ (cloneStage a w).1 := fun h => by
    rcases cloneStage_evs a w _ h with h1 | h1 | ⟨p, h1⟩ <;> simp at h1
  have habs7 : Ev.ninjaBuild ∉ (cmakeStage w).1 := fun h => by
    have := cmakeStage_evs w _ h; simp at this
  have htail : ∀ rest : Step,
      Ev.ninjaBuild ∈ (seqStep (buildStage w) rest).1 →
      ∃ pre post, (seqStep (buildStage w) rest).1
        = pre ++ ((if w.installExists then [Ev.rmInstall] else [])
            ++ [Ev.mkInstall, Ev.ninjaBuild]) ++ post := by
    intro rest _
    cases hb : w.buildOk
    · refine ⟨[], [], ?_⟩
      rw [seqStep_of_some (buildStage w) rest 1 (by simp [buildStage, hb])]
      simp [buildStage]
    · refine ⟨[], rest.1, ?_⟩
      rw [seqStep_of_none (buildStage w) rest (by simp [buildStage, hb])]
      simp [buildStage]
  have hshape : ∃ pre post,
      (runScript a w).1
        = pre ++ ((if w.installExists then [Ev.rmInstall] else [])
            ++ [Ev.mkInstall, Ev.ninjaBuild]) ++ post := by
    unfold runScript at hmem ⊢
    exact shape_seqStep _ _ _ habs1
      (shape_seqStep _ _ _ habs2
        (shape_seqStep _ _ _ habs3
          (shape_seqStep _ _ _ habs4
            (shape_seqStep _ _ _ habs5
              (shape_seqStep _ _ _ habs6
                (shape_seqStep _ _ _ habs7
                  (htail _)))))))
      hmem
  rcases hshape with ⟨pre, post, heq⟩
  refine ⟨pre, post, heq, ?_⟩
  rw [show pre ++ ((if w.installExists then [Ev.rmInstall] else []) ++ [Ev.mkInstall])
      = (pre ++ (if w.installExists then [Ev.rmInstall] else [])) ++ [Ev.mkInstall]
    by simp]
  exact replayInstall_snoc_mkInstall w init _

/-- C7 witness: a concrete run that reaches the build stage. -/
theorem c7_build_starts_from_clean_install_witness :
    Ev.ninjaBuild ∈ (runScript AOk WOk).1
    ∧ ∃ pre post,
        (runScript AOk WOk).1
          = pre ++ ((if WOk.installExists then [Ev.rmInstall] else [])
              ++ [Ev.mkInstall, Ev.ninjaBuild]) ++ post
        ∧ replayInstall WOk none
            (pre ++ ((if WOk.installExists then [Ev.rmInstall] else []) ++ [Ev.mkInstall]))
            = some [] :=
  ⟨by decide, c7_build_starts_from_clean_install AOk WOk none (by decide)⟩

/-- C8: on Windows, when the environment-script invocation itself
succeeded but its output cannot be parsed by the variable-extraction loop
(a decode failure raises an uncaught exception), the process terminates
with a non-zero code before any build step: the whole trace is the single
vcvars call, with no configure, clone or build invocation. -/
theorem c8_vcvars_parse_failure_aborts (a : Args) (w : World)
    (hplat : w.plat = .windows) (hcmd : w.vcCmdOk = true)
    (hparse : parseVcvars w.vcDec w.vcLines = none) :
    (runScript a w).2 = some 1
    ∧ (runScript a w).1 = [Ev.vcvarsCall]
    ∧ Ev.ninjaBuild ∉ (runScript a w).1
    ∧ Ev.cmake ∉ (runScript a w).1
    ∧ Ev.gitClone ∉ (runScript a w).1 := by
  have hvc : vcvarsStage w = ([Ev.vcvarsCall], some 1) := by
    simp [vcvarsStage, hplat, hcmd, hparse]
  have hrun : runScript a w = ([Ev.vcvarsCall], some 1) := by
    unfold runScript
    rw [seqStep_of_some (vcvarsStage w) _ 1 (by rw [hvc]), hvc]
  rw [hrun]
  exact ⟨rfl, rfl, by simp, by simp, by simp⟩

/-- C8 witness: a vcvars output line whose bytes fail to decode. -/
theorem c8_vcvars_parse_failure_aborts_witness :
    (WWinBadVc.plat = Platform.windows
      ∧ WWinBadVc.vcCmdOk = true
      ∧ parseVcvars WWinBadVc.vcDec WWinBadVc.vcLines = none)
    ∧ ((runScript AOk WWinBadVc).2 = some 1
      ∧ (runScript AOk WWinBadVc).1 = [Ev.vcvarsCall]
      ∧ Ev.ninjaBuild ∉ (runScript AOk WWinBadVc).1
      ∧ Ev.cmake ∉ (runScript AOk WWinBadVc).1
      ∧ Ev.gitClone ∉ (runScript AOk WWinBadVc).1) :=
  ⟨⟨rfl, rfl, rfl⟩, c8_vcvars_parse_failure_aborts AOk WWinBadVc rfl rfl rfl⟩

/-- C9: on macOS with signing enabled, every `codesign` invocation in the
run's trace is preceded by a keychain-unlock attempt, and when the unlock
helper is missing or its invocation fails, no binary is ever passed to
`codesign` and the signing walk aborts the run with exit code 1 as soon
as any qualifying binary exists. -/
theorem c9_keychain_unlock_guard (a : Args) (w : World)
    (hplat : w.plat = .darwin) (hsign : a.sign = true) :
    unlockBeforeSign (runScript a w).1
    ∧ ((w.helperExists && w.unlockOk) = false →
        (∀ p, Ev.codesign p ∉ (runScript a w).1)
        ∧ ∀ fs f, f ∈ fs → macWantsSign f = true →
            (macSignWalk w fs).2 = some 1) := by
  have hsg : signStage a w = macSignWalk w w.macFiles := by
    simp [signStage, hsign, hplat]
  constructor
  · unfold runScript
    apply unlockBeforeSign_seqStep
    · exact unlockBeforeSign_of_no_codesign _ fun p h => by
        have := vcvarsStage_evs w _ h; simp at this
    apply unlockBeforeSign_seqStep
    · exact unlockBeforeSign_of_no_codesign _ fun p h => by
        have := promptStage_evs a w _ h; simp at this
    apply unlockBeforeSign_seqStep
    · exact unlockBeforeSign_of_no_codesign _ fun p h => by
        have := artifactsStage_evs w _ h; simp at this
    apply unlockBeforeSign_seqStep
    · exact unlockBeforeSign_of_no_codesign _ fun p h => by
        rcases cleanStage_evs a w _ h with h1 | h1 | h1 <;> simp at h1
    apply unlockBeforeSign_seqStep
    · exact unlockBeforeSign_of_no_codesign _ fun p h => by
        have := overwriteStage_evs a w _ h; simp at this
    apply unlockBeforeSign_seqStep
    · exact unlockBeforeSign_of_no_codesign _ fun p h => by
        rcases cloneStage_evs a w _ h with h1 | h1 | ⟨q, h1⟩ <;> simp at h1
    apply unlockBeforeSign_seqStep
    · exact unlockBeforeSign_of_no_codesign _ fun p h => by
        have := cmakeStage_evs w _ h; simp at this
    apply unlockBeforeSign_seqStep
    · exact unlockBeforeSign_of_no_codesign _ fun p h => by
        rcases buildStage_evs w _ h with h1 | h1 | h1 <;> simp at h1
    apply unlockBeforeSign_seqStep
    · exact unlockBeforeSign_of_no_codesign _ fun p h => by
        have := installStage_evs w _ h; simp at this
    apply unlockBeforeSign_seqStep
    · rw [hsg]
      exact macSignWalk_unlockBeforeSign w w.macFiles
    apply unlockBeforeSign_seqStep
    · exact unlockBeforeSign_of_no_codesign _ fun p h => by
        have := archiveStage_evs _ h; simp at this
    · exact unlockBeforeSign_of_no_codesign _ fun p h => by
        have := teardownStage_evs a _ h; simp at this
  · intro hfail
    constructor
    · intro p hmem
      unfold runScript at hmem
      rcases mem_seqStep hmem with h | h
      · have := vcvarsStage_evs w _ h; simp at this
      rcases mem_seqStep h with h | h
      · have := promptStage_evs a w _ h; simp at this
      rcases mem_seqStep h with h | h
      · have := artifactsStage_evs w _ h; simp at this
      rcases mem_seqStep h with h | h
      · rcases cleanStage_evs a w _ h with h1 | h1 | h1 <;> simp at h1
      rcases mem_seqStep h with h | h
      · have := overwriteStage_evs a w _ h; simp at this
      rcases mem_seqStep h with h | h
      · rcases cloneStage_evs a w _ h with h1 | h1 | ⟨q, h1⟩ <;> simp at h1
      rcases mem_seqStep h with h | h
      · have := cmakeStage_evs w _ h; simp at this
      rcases mem_seqStep h with h | h
      · rcases buildStage_evs w _ h with h1 | h1 | h1 <;> simp at h1
      rcases mem_seqStep h with h | h
      · have := installStage_evs w _ h; simp at this
      rcases mem_seqStep h with h | h
      · rw [hsg] at h
        exact macSignWalk_no_codesign w hfail w.macFiles p h
      rcases mem_seqStep h with h | h
      · have := archiveStage_evs _ h; simp at this
      · have := teardownStage_evs a _ h; simp at this
    · intro fs f hf hq
      exact macSignWalk_aborts w hfail fs f hf hq

/-- C9 witness: signing enabled on macOS with a missing unlock helper. -/
theorem c9_keychain_unlock_guard_witness :
    (WMacNoHelper.plat = Platform.darwin
      ∧ ({ AOk with sign := true } : Args).sign = true)
    ∧ (unlockBeforeSign (runScript { AOk with sign := true } WMacNoHelper).1
      ∧ ((WMacNoHelper.helperExists && WMacNoHelper.unlockOk) = false →
          (∀ p, Ev.codesign p ∉ (runScript { AOk with sign := true } WMacNoHelper).1)
          ∧ ∀ fs f, f ∈ fs → macWantsSign f = true →
              (macSignWalk WMacNoHelper fs).2 = some 1)) :=
  ⟨⟨rfl, rfl⟩,
    c9_keychain_unlock_guard { AOk with sign := true } WMacNoHelper rfl rfl⟩

/-- C4: on Windows the timestamp servers are tried in their fixed list
order; the attempted-server sequence is exactly the failing head of the
list followed by the first succeeding server (so the first success wins
and no later server is attempted), the invocation reports success iff
some server succeeds, and when every server fails for a qualifying file
the signing walk — and with it the whole run — aborts with exit code 1. -/
theorem c4_windows_timestamp_retry (ok : List Char → Bool) (path : List Char)
    (srvs : List (List Char)) :
    ((signWindowsFiles ok path srvs).1
        = (srvs.takeWhile (fun s => !ok s)
            ++ (srvs.dropWhile (fun s => !ok s)).take 1).map (Ev.signtool path)
      ∧ (signWindowsFiles ok path srvs).2
          = !(srvs.dropWhile (fun s => !ok s)).isEmpty)
    ∧ (∀ (w : World) fs f, f ∈ fs → isWinSignTarget f = true →
        (∀ s ∈ timeServers, w.signtoolOk f s = false) →
        (winSignWalk w fs).2 = some 1)
    ∧ (∀ (a : Args) (w : World), a.sign = true → w.plat = .windows →
        ReachesSign a w →
        (∃ f ∈ w.winFiles, isWinSignTarget f = true
          ∧ ∀ s ∈ timeServers, w.signtoolOk f s = false) →
        (runScript a w).2 = some 1) := by
  refine ⟨?_, ?_, ?_⟩
  · rw [signWindowsFiles_spec]
    exact ⟨rfl, rfl⟩
  · intro w fs f hf htar hfail
    exact winSignWalk_aborts w fs f hf htar hfail
  · rintro a w hsig hplat hreach ⟨f, hf, htar, hfail⟩
    have hwalk := winSignWalk_aborts w w.winFiles f hf htar hfail
    have hsg : (signStage a w).2 = some 1 := by
      simp only [signStage, hsig, hplat, if_pos]
      exact hwalk
    rw [runScript_exit_reaches_sign a w hreach,
      seqStep_of_some (signStage a w) _ 1 hsg]
    exact hsg

/-- C4 witness: server list where the first server fails and the second
succeeds, plus a run in which every server fails for an `.exe` file. -/
theorem c4_windows_timestamp_retry_witness :
    ((signWindowsFiles (fun s => s = "http://timestamp.comodoca.com/rfc3161".toList)
        "a.exe".toList timeServers).1
      = ((timeServers.takeWhile
            (fun s => !(decide (s = "http://timestamp.comodoca.com/rfc3161".toList))))
          ++ (timeServers.dropWhile
            (fun s => !(decide (s = "http://timestamp.comodoca.com/rfc3161".toList)))).take 1).map
          (Ev.signtool "a.exe".toList))
    ∧ ((("a.exe".toList : List Char) ∈ WWinSignFail.winFiles
        ∧ isWinSignTarget "a.exe".toList = true
        ∧ ∀ s ∈ timeServers, WWinSignFail.signtoolOk "a.exe".toList s = false)
      ∧ (winSignWalk WWinSignFail WWinSignFail.winFiles).2 = some 1)
    ∧ (runScript { AOk with sign := true } WWinSignFail).2 = some 1 :=
  ⟨(c4_windows_timestamp_retry
      (fun s => s = "http://timestamp.comodoca.com/rfc3161".toList)
      "a.exe".toList timeServers).1.1,
    ⟨⟨by decide, by decide, by decide⟩,
      (c4_windows_timestamp_retry
        (fun s => s = "http://timestamp.comodoca.com/rfc3161".toList)
        "a.exe".toList timeServers).2.1 WWinSignFail WWinSignFail.winFiles
        "a.exe".toList (by decide) (by decide) (by decide)⟩,
    (c4_windows_timestamp_retry
      (fun s => s = "http://timestamp.comodoca.com/rfc3161".toList)
      "a.exe".toList timeServers).2.2 { AOk with sign := true } WWinSignFail rfl rfl
      (by refine ⟨?_, ?_, ?_, ?_, ?_, ?_, ?_⟩ <;> decide)
      ⟨"a.exe".toList, by decide, by decide, by decide⟩⟩

/-- C10: the repeatable `--patch` flag is parsed but never read after
argument parsing; two invocations differing only in its values produce
identical traces and exit statuses, and in particular the same sequence
of patches applied to the source tree. -/
theorem c10_patch_flag_unused (a : Args) (w : World)
    (p1 p2 : Option (List (List Char))) :
    runScript { a with patch := p1 } w = runScript { a with patch := p2 } w
    ∧ appliedPatches (runScript { a with patch := p1 } w).1
        = appliedPatches (runScript { a with patch := p2 } w).1 :=
  ⟨rfl, rfl⟩
